import Mathlib

/-!
Verification of the Stone Soup association-and-estimation core against its
specification.  The tracking core (predictor, updater, hypothesiser, the two
data associators and the interpolation utility) is exercised by the tutorial
scripts and tests in this repository; the components themselves are modelled
here over `ℚ`, faithful to the specification text, and the claimed properties
are proved about the models.
-/

namespace StoneSoup

open Matrix

/-! ### Data model for association

Detections and tracks are identified by their index in the (insertion-ordered)
input collections.  A hypothesis records the paired detection (`none` for the
missed-detection option) and its distance score, following §3 of the spec. -/

/-- A scored pairing of a track prediction with a detection (`none` = missed
detection), as in the spec data model. -/
structure Hypothesis where
  detection : Option Nat
  distance : ℚ
deriving DecidableEq

/-- Modelled from the spec: `DistanceHypothesiser.hypothesise` (source not in
this repository).  For one track prediction, score each of the `nd` detections
with the configured measure `μ` and keep it only if its distance is strictly
below `missed`; always include the missed-detection hypothesis with score
`missed` (spec §4.5). -/
def hypothesise (μ : Nat → ℚ) (nd : Nat) (missed : ℚ) : List Hypothesis :=
  ⟨none, missed⟩ ::
    (List.range nd).filterMap (fun j =>
      if μ j < missed then some ⟨some j, μ j⟩ else none)

/-- Hypothesis set of track `i`, with the per-track measure `μ i`. -/
def trackHyps (μ : Nat → Nat → ℚ) (nd : Nat) (missed : ℚ) (i : Nat) :
    List Hypothesis :=
  hypothesise (μ i) nd missed

/-- All (track, hypothesis) pairs, flattened in input order (spec §4.6). -/
def allPairs (μ : Nat → Nat → ℚ) (nt nd : Nat) (missed : ℚ) :
    List (Nat × Hypothesis) :=
  (List.range nt).flatMap fun i => (trackHyps μ nd missed i).map fun h => (i, h)

/-- A pair is eligible while its track is unassigned and its detection (if
any) is unused (spec §4.6). -/
def elig (remaining used : List Nat) (p : Nat × Hypothesis) : Bool :=
  decide (p.1 ∈ remaining) &&
    (match p.2.detection with
     | none => true
     | some j => decide (j ∉ used))

/-- Record the detection of a chosen pair as used. -/
def addDet (p : Nat × Hypothesis) (used : List Nat) : List Nat :=
  match p.2.detection with
  | none => used
  | some j => j :: used

/-- Modelled from the spec: the greedy selection loop of `NearestNeighbour`
(source not in this repository).  Repeatedly pick the eligible pair with the
lowest distance (first in input order on ties), assign it, and repeat
(spec §4.6).  `fuel` bounds the number of assignments. -/
def greedyGo (pairs : List (Nat × Hypothesis)) :
    Nat → List Nat → List Nat → List (Nat × Hypothesis)
  | 0, _, _ => []
  | fuel+1, remaining, used =>
    match (pairs.filter (elig remaining used)).argmin (fun p => p.2.distance) with
    | none => []
    | some p => p :: greedyGo pairs fuel (remaining.erase p.1) (addDet p used)

/-- Modelled from the spec: `NearestNeighbour.associate` (source not in this
repository), greedy association of `nt` tracks with `nd` detections. -/
def associateNN (μ : Nat → Nat → ℚ) (nt nd : Nat) (missed : ℚ) :
    List (Nat × Hypothesis) :=
  greedyGo (allPairs μ nt nd missed) nt (List.range nt) []

/-- All ways of choosing one hypothesis per track, in track order. -/
def choiceLists : List Nat → (Nat → List Hypothesis) →
    List (List (Nat × Hypothesis))
  | [], _ => [[]]
  | i :: is, h =>
    (h i).flatMap fun hy => (choiceLists is h).map fun rest => (i, hy) :: rest

/-- The detections actually used by an association result. -/
def detsOf (a : List (Nat × Hypothesis)) : List Nat :=
  a.filterMap fun p => p.2.detection

/-- Total summed distance of an association result. -/
def totalDist (a : List (Nat × Hypothesis)) : ℚ :=
  (a.map fun p => p.2.distance).sum

/-- The candidate assignments for the optimal associator: one gated hypothesis
per track, no detection used twice (spec §4.7). -/
def gnnCandidates (μ : Nat → Nat → ℚ) (nt nd : Nat) (missed : ℚ) :
    List (List (Nat × Hypothesis)) :=
  (choiceLists (List.range nt) (trackHyps μ nd missed)).filter
    fun a => decide (detsOf a).Nodup

/-- Modelled from the spec: `GlobalNearestNeighbour.associate` (source not in
this repository): the one-to-one (or one-to-missed) pairing minimising total
summed cost (spec §4.7). -/
def associateGNN (μ : Nat → Nat → ℚ) (nt nd : Nat) (missed : ℚ) :
    List (Nat × Hypothesis) :=
  ((gnnCandidates μ nt nd missed).argmin totalDist).getD []

/-- The per-timestep caller step from the tutorial sources (05 lines 186-192,
06 lines 193-199): apply the update when the chosen hypothesis has a
measurement, otherwise keep the prediction. -/
def applyHyp {α : Type} (prediction : α) (upd : Nat → α) (h : Hypothesis) : α :=
  match h.detection with
  | some j => upd j
  | none => prediction

/-! ### Facts about the hypothesiser -/

lemma mem_hypothesise_tail {μ : Nat → ℚ} {nd : Nat} {missed : ℚ} {h : Hypothesis}
    (hm : h ∈ (List.range nd).filterMap (fun j =>
      if μ j < missed then some ⟨some j, μ j⟩ else none)) :
    ∃ j, j < nd ∧ μ j < missed ∧ h = ⟨some j, μ j⟩ := by
  rcases List.mem_filterMap.mp hm with ⟨j, hj, hf⟩
  by_cases hlt : μ j < missed
  · refine ⟨j, List.mem_range.mp hj, hlt, ?_⟩
    simp only [if_pos hlt, Option.some.injEq] at hf
    exact hf.symm
  · simp [hlt] at hf

lemma missed_mem_hypothesise (μ : Nat → ℚ) (nd : Nat) (missed : ℚ) :
    (⟨none, missed⟩ : Hypothesis) ∈ hypothesise μ nd missed :=
  List.mem_cons_self _ _

lemma mem_hypothesise {μ : Nat → ℚ} {nd : Nat} {missed : ℚ} {h : Hypothesis}
    (hm : h ∈ hypothesise μ nd missed) :
    h = ⟨none, missed⟩ ∨ ∃ j, j < nd ∧ μ j < missed ∧ h = ⟨some j, μ j⟩ := by
  rcases List.mem_cons.mp hm with hh | ht
  · exact Or.inl hh
  · exact Or.inr (mem_hypothesise_tail ht)

/-- Claim C3: the hypothesis set returned by the hypothesiser contains exactly
one missed-detection hypothesis, whose score is the configured missed
distance; it contains a hypothesis for a detection exactly when that
detection's measured distance is strictly below the missed distance; and it is
never empty. -/
theorem hypothesiser_contract (μ : Nat → ℚ) (nd : Nat) (missed : ℚ) :
    (hypothesise μ nd missed).countP (fun h => h.detection.isNone) = 1 ∧
    (∀ h ∈ hypothesise μ nd missed, h.detection = none → h.distance = missed) ∧
    (∀ j, j < nd →
      ((∃ h ∈ hypothesise μ nd missed, h.detection = some j ∧ h.distance = μ j) ↔
        μ j < missed)) ∧
    hypothesise μ nd missed ≠ [] := by
  refine ⟨?_, ?_, ?_, ?_⟩
  · rw [hypothesise, List.countP_cons_of_pos _ _ (by simp)]
    have : ((List.range nd).filterMap (fun j =>
        if μ j < missed then some (⟨some j, μ j⟩ : Hypothesis) else none)).countP
        (fun h => h.detection.isNone) = 0 := by
      rw [List.countP_eq_zero]
      intro h hm
      rcases mem_hypothesise_tail hm with ⟨j, _, _, rfl⟩
      simp
    omega
  · intro h hm hdet
    rcases mem_hypothesise hm with rfl | ⟨j, _, _, rfl⟩
    · rfl
    · simp at hdet
  · intro j hj
    constructor
    · rintro ⟨h, hm, hdet, hdist⟩
      rcases mem_hypothesise hm with rfl | ⟨j2, _, hlt, rfl⟩
      · simp at hdet
      · simp only [Option.some.injEq] at hdet
        subst hdet
        exact hlt
    · intro hlt
      refine ⟨⟨some j, μ j⟩, ?_, rfl, rfl⟩
      refine List.mem_cons.mpr (Or.inr (List.mem_filterMap.mpr ⟨j, ?_, ?_⟩))
      · exact List.mem_range.mpr hj
      · rw [if_pos hlt]
  · exact List.cons_ne_nil _ _

/-- Witness for C3 at a concrete input: two detections at distances 0 and 1
with missed distance 1, gating check applied to detection 0. -/
theorem hypothesiser_contract_witness :
    (0:ℕ) < 2 ∧
    ((∃ h ∈ hypothesise (fun j => (j : ℚ)) 2 1, h.detection = some 0 ∧
        h.distance = (fun j => (j : ℚ)) 0) ↔ (fun j => (j : ℚ)) 0 < 1) :=
  ⟨by decide, (hypothesiser_contract (fun j => (j : ℚ)) 2 1).2.2.1 0 (by decide)⟩

/-! ### Facts about the greedy (Nearest Neighbour) associator -/

lemma mem_allPairs {μ : Nat → Nat → ℚ} {nt nd : Nat} {missed : ℚ}
    {p : Nat × Hypothesis} :
    p ∈ allPairs μ nt nd missed ↔ p.1 < nt ∧ p.2 ∈ trackHyps μ nd missed p.1 := by
  constructor
  · intro hp
    rcases List.mem_flatMap.mp hp with ⟨i, hi, hmem⟩
    rcases List.mem_map.mp hmem with ⟨h, hh, rfl⟩
    exact ⟨List.mem_range.mp hi, hh⟩
  · rintro ⟨h1, h2⟩
    exact List.mem_flatMap.mpr
      ⟨p.1, List.mem_range.mpr h1, List.mem_map.mpr ⟨p.2, h2, rfl⟩⟩

lemma elig_iff {remaining used : List Nat} {p : Nat × Hypothesis} :
    elig remaining used p = true ↔
      p.1 ∈ remaining ∧ ∀ j, p.2.detection = some j → j ∉ used := by
  cases hd : p.2.detection <;> simp [elig, hd]

lemma elig_missed {remaining used : List Nat} {i : Nat} {mh : ℚ}
    (hi : i ∈ remaining) :
    elig remaining used (i, ⟨none, mh⟩) = true := by
  simp [elig, hi]

lemma detsOf_cons_none {p : Nat × Hypothesis} {l : List (Nat × Hypothesis)}
    (hd : p.2.detection = none) : detsOf (p :: l) = detsOf l := by
  simp [detsOf, hd]

lemma detsOf_cons_some {p : Nat × Hypothesis} {l : List (Nat × Hypothesis)}
    {j : Nat} (hd : p.2.detection = some j) : detsOf (p :: l) = j :: detsOf l := by
  simp [detsOf, hd]

/-- Invariants of the greedy loop: it assigns exactly the remaining tracks
(each once), chooses only listed pairs, and never reuses a detection. -/
lemma greedyGo_spec (pairs : List (Nat × Hypothesis)) (mh : ℚ) :
    ∀ (fuel : Nat) (remaining used : List Nat),
      fuel = remaining.length →
      (∀ i ∈ remaining, (i, (⟨none, mh⟩ : Hypothesis)) ∈ pairs) →
      ((greedyGo pairs fuel remaining used).map Prod.fst).Perm remaining ∧
      (∀ p ∈ greedyGo pairs fuel remaining used, p ∈ pairs) ∧
      (detsOf (greedyGo pairs fuel remaining used)).Nodup ∧
      (∀ d ∈ detsOf (greedyGo pairs fuel remaining used), d ∉ used) := by
  intro fuel
  induction fuel with
  | zero =>
    intro remaining used hlen _
    have : remaining = [] := List.length_eq_zero.mp hlen.symm
    subst this
    simp [greedyGo, detsOf]
  | succ n ih =>
    intro remaining used hlen hmh
    have hne : remaining ≠ [] := by
      intro h
      rw [h] at hlen
      simp at hlen
    obtain ⟨r, rs, rfl⟩ := List.exists_cons_of_ne_nil hne
    have hfne : (r, (⟨none, mh⟩ : Hypothesis)) ∈
        pairs.filter (elig (r :: rs) used) :=
      List.mem_filter.mpr ⟨hmh r (List.mem_cons_self _ _),
        elig_missed (List.mem_cons_self _ _)⟩
    cases harg : (pairs.filter (elig (r :: rs) used)).argmin
        (fun p => p.2.distance) with
    | none =>
      rw [List.argmin_eq_none] at harg
      rw [harg] at hfne
      simp at hfne
    | some p =>
      have hpfilter : p ∈ pairs.filter (elig (r :: rs) used) :=
        List.argmin_mem (Option.mem_def.mpr harg)
      have hppairs : p ∈ pairs := (List.mem_filter.mp hpfilter).1
      have helig := elig_iff.mp (List.mem_filter.mp hpfilter).2
      have hp1mem : p.1 ∈ r :: rs := helig.1
      have hlen2 : n = ((r :: rs).erase p.1).length := by
        rw [List.length_erase_of_mem hp1mem]
        rw [← hlen]
        rfl
      have hmh2 : ∀ i ∈ (r :: rs).erase p.1,
          (i, (⟨none, mh⟩ : Hypothesis)) ∈ pairs :=
        fun i hi => hmh i (List.mem_of_mem_erase hi)
      obtain ⟨ihperm, ihpairs, ihnodup, ihused⟩ :=
        ih ((r :: rs).erase p.1) (addDet p used) hlen2 hmh2
      have hunfold : greedyGo pairs (n+1) (r :: rs) used =
          p :: greedyGo pairs n ((r :: rs).erase p.1) (addDet p used) := by
        rw [greedyGo, harg]
      rw [hunfold]
      refine ⟨?_, ?_, ?_, ?_⟩
      · rw [List.map_cons]
        exact (ihperm.cons p.1).trans (List.perm_cons_erase hp1mem).symm
      · intro q hq
        rcases List.mem_cons.mp hq with rfl | hq2
        · exact hppairs
        · exact ihpairs q hq2
      · cases hd : p.2.detection with
        | none =>
          rw [detsOf_cons_none hd]
          exact ihnodup
        | some j =>
          rw [detsOf_cons_some hd]
          refine List.nodup_cons.mpr ⟨?_, ihnodup⟩
          intro hjmem
          have := ihused j hjmem
          rw [addDet, hd] at this
          exact this (List.mem_cons_self _ _)
      · cases hd : p.2.detection with
        | none =>
          rw [detsOf_cons_none hd]
          intro d hdmem
          have := ihused d hdmem
          rw [addDet, hd] at this
          exact this
        | some j =>
          rw [detsOf_cons_some hd]
          intro d hdmem
          rcases List.mem_cons.mp hdmem with rfl | hd2
          · exact helig.2 d hd
          · intro hdu
            have := ihused d hd2
            rw [addDet, hd] at this
            exact this (List.mem_cons_of_mem _ hdu)

/-! ### Facts about the optimal (Global Nearest Neighbour) associator -/

lemma choiceLists_fst {h : Nat → List Hypothesis} :
    ∀ {is : List Nat} {a : List (Nat × Hypothesis)},
      a ∈ choiceLists is h → a.map Prod.fst = is := by
  intro is
  induction is with
  | nil =>
    intro a ha
    simp only [choiceLists, List.mem_singleton] at ha
    subst ha
    simp
  | cons i is ih =>
    intro a ha
    simp only [choiceLists] at ha
    rcases List.mem_flatMap.mp ha with ⟨hy, _, hmem⟩
    rcases List.mem_map.mp hmem with ⟨rest, hrest, rfl⟩
    simp [ih hrest]

lemma choiceLists_snd {h : Nat → List Hypothesis} :
    ∀ {is : List Nat} {a : List (Nat × Hypothesis)},
      a ∈ choiceLists is h → ∀ p ∈ a, p.2 ∈ h p.1 := by
  intro is
  induction is with
  | nil =>
    intro a ha
    simp only [choiceLists, List.mem_singleton] at ha
    subst ha
    simp
  | cons i is ih =>
    intro a ha p hp
    simp only [choiceLists] at ha
    rcases List.mem_flatMap.mp ha with ⟨hy, hhy, hmem⟩
    rcases List.mem_map.mp hmem with ⟨rest, hrest, rfl⟩
    rcases List.mem_cons.mp hp with rfl | hp2
    · exact hhy
    · exact ih hrest p hp2

lemma choiceLists_map_mem {h : Nat → List Hypothesis} (f : Nat → Hypothesis) :
    ∀ (is : List Nat), (∀ i ∈ is, f i ∈ h i) →
      is.map (fun i => (i, f i)) ∈ choiceLists is h := by
  intro is
  induction is with
  | nil => simp [choiceLists]
  | cons i is ih =>
    intro hf
    simp only [choiceLists, List.map_cons]
    exact List.mem_flatMap.mpr ⟨f i, hf i (List.mem_cons_self _ _),
      List.mem_map.mpr ⟨_, ih (fun j hj => hf j (List.mem_cons_of_mem _ hj)), rfl⟩⟩

lemma gnnCandidates_ne_nil (μ : Nat → Nat → ℚ) (nt nd : Nat) (missed : ℚ) :
    gnnCandidates μ nt nd missed ≠ [] := by
  have hmem : (List.range nt).map (fun i => (i, (⟨none, missed⟩ : Hypothesis))) ∈
      gnnCandidates μ nt nd missed := by
    refine List.mem_filter.mpr ⟨choiceLists_map_mem _ _
      (fun i _ => missed_mem_hypothesise _ _ _), ?_⟩
    have hnil : detsOf ((List.range nt).map
        (fun i => (i, (⟨none, missed⟩ : Hypothesis)))) = [] := by
      rw [detsOf, List.filterMap_map]
      exact List.filterMap_eq_nil_iff.mpr (fun a _ => rfl)
    simp [hnil]
  intro hnil
  rw [hnil] at hmem
  simp at hmem

lemma associateGNN_mem (μ : Nat → Nat → ℚ) (nt nd : Nat) (missed : ℚ) :
    associateGNN μ nt nd missed ∈ gnnCandidates μ nt nd missed := by
  unfold associateGNN
  cases harg : (gnnCandidates μ nt nd missed).argmin totalDist with
  | none =>
    exact absurd (List.argmin_eq_none.mp harg) (gnnCandidates_ne_nil μ nt nd missed)
  | some a =>
    rw [Option.getD_some]
    exact List.argmin_mem (Option.mem_def.mpr harg)

/-- Any valid assignment list (keys a permutation of the tracks, hypotheses
drawn from each track's own set) is, up to reordering, one of the enumerated
candidate choices. -/
lemma exists_choice_perm {h : Nat → List Hypothesis} :
    ∀ (is : List Nat) (l : List (Nat × Hypothesis)),
      (l.map Prod.fst).Perm is → (∀ p ∈ l, p.2 ∈ h p.1) →
      ∃ c ∈ choiceLists is h, c.Perm l := by
  intro is
  induction is with
  | nil =>
    intro l hperm _
    have hmap : l.map Prod.fst = [] := List.Perm.eq_nil hperm
    have : l = [] := List.map_eq_nil_iff.mp hmap
    subst this
    exact ⟨[], by simp [choiceLists], List.Perm.refl _⟩
  | cons i is ih =>
    intro l hperm hmem
    have hi : i ∈ l.map Prod.fst := hperm.symm.subset (List.mem_cons_self _ _)
    rcases List.mem_map.mp hi with ⟨p, hpl, hpi⟩
    rcases List.append_of_mem hpl with ⟨s, t, rfl⟩
    have hl : (s ++ p :: t).Perm (p :: (s ++ t)) := List.perm_middle
    have hfst : (((s ++ t)).map Prod.fst).Perm is := by
      have h2 : ((s ++ p :: t).map Prod.fst).Perm
          (p.1 :: (s ++ t).map Prod.fst) := by
        have := hl.map Prod.fst
        simp only [List.map_cons] at this
        exact this
      rw [hpi] at h2
      exact (hperm.symm.trans h2).cons_inv.symm
    have hmem2 : ∀ q ∈ s ++ t, q.2 ∈ h q.1 := by
      intro q hq
      rcases List.mem_append.mp hq with hq2 | hq2
      · exact hmem q (List.mem_append_left _ hq2)
      · exact hmem q (List.mem_append_right _ (List.mem_cons_of_mem _ hq2))
    rcases ih (s ++ t) hfst hmem2 with ⟨c, hc, hcperm⟩
    refine ⟨(i, p.2) :: c, ?_, ?_⟩
    · simp only [choiceLists]
      exact List.mem_flatMap.mpr ⟨p.2, hpi ▸ hmem p hpl,
        List.mem_map.mpr ⟨c, hc, rfl⟩⟩
    · have hp_eq : (i, p.2) = p := by
        rw [← hpi]
      exact hp_eq ▸ ((hcperm.cons p).trans hl.symm)

/-- Claim C2: both associators return a result whose keys are exactly the
input tracks (each exactly once, with one hypothesis each) and in which no
detection is used by two distinct tracks. -/
theorem association_result_wellformed (μ : Nat → Nat → ℚ) (nt nd : Nat)
    (missed : ℚ) :
    ((associateNN μ nt nd missed).map Prod.fst).Perm (List.range nt) ∧
    (detsOf (associateNN μ nt nd missed)).Nodup ∧
    ((associateGNN μ nt nd missed).map Prod.fst).Perm (List.range nt) ∧
    (detsOf (associateGNN μ nt nd missed)).Nodup := by
  obtain ⟨hperm, _, hnodup, -⟩ := greedyGo_spec (allPairs μ nt nd missed) missed
    nt (List.range nt) [] (List.length_range nt).symm
    (fun i hi => mem_allPairs.mpr ⟨List.mem_range.mp hi,
      missed_mem_hypothesise _ _ _⟩)
  have hgnn := associateGNN_mem μ nt nd missed
  have hgc := List.mem_filter.mp hgnn
  refine ⟨hperm, hnodup, ?_, ?_⟩
  · rw [choiceLists_fst hgc.1]
  · simpa using hgc.2

/-- Claim C1: the total summed distance of the Global Nearest Neighbour
assignment is at most that of the greedy Nearest Neighbour assignment on the
same tracks, detections and hypothesiser configuration. -/
theorem gnn_total_le_nn_total (μ : Nat → Nat → ℚ) (nt nd : Nat) (missed : ℚ) :
    totalDist (associateGNN μ nt nd missed) ≤
      totalDist (associateNN μ nt nd missed) := by
  obtain ⟨hperm, hpairs, hnodup, -⟩ := greedyGo_spec (allPairs μ nt nd missed)
    missed nt (List.range nt) [] (List.length_range nt).symm
    (fun i hi => mem_allPairs.mpr ⟨List.mem_range.mp hi,
      missed_mem_hypothesise _ _ _⟩)
  have hmem : ∀ p ∈ associateNN μ nt nd missed,
      p.2 ∈ trackHyps μ nd missed p.1 :=
    fun p hp => (mem_allPairs.mp (hpairs p hp)).2
  obtain ⟨c, hc, hcperm⟩ := exists_choice_perm (List.range nt)
    (associateNN μ nt nd missed) hperm hmem
  have hcand : c ∈ gnnCandidates μ nt nd missed := by
    refine List.mem_filter.mpr ⟨hc, ?_⟩
    have hdp : (detsOf c).Perm (detsOf (associateNN μ nt nd missed)) :=
      hcperm.filterMap _
    simpa using hdp.nodup_iff.mpr hnodup
  have htot : totalDist c = totalDist (associateNN μ nt nd missed) := by
    unfold totalDist
    exact (hcperm.map _).sum_eq
  cases harg : (gnnCandidates μ nt nd missed).argmin totalDist with
  | none =>
    exact absurd (List.argmin_eq_none.mp harg) (gnnCandidates_ne_nil μ nt nd missed)
  | some m =>
    have hle := List.le_of_mem_argmin hcand (Option.mem_def.mpr harg)
    have hm : associateGNN μ nt nd missed = m := by
      rw [associateGNN, harg, Option.getD_some]
    rw [hm]
    exact htot ▸ hle

/-! ### The missed-detection fallback -/

lemma hypothesise_all_gated_out {μ : Nat → ℚ} {nd : Nat} {missed : ℚ}
    (hg : ∀ j, j < nd → ¬ (μ j < missed)) :
    hypothesise μ nd missed = [⟨none, missed⟩] := by
  rw [hypothesise]
  have : (List.range nd).filterMap (fun j =>
      if μ j < missed then some (⟨some j, μ j⟩ : Hypothesis) else none) = [] := by
    rw [List.filterMap_eq_nil_iff]
    intro j hj
    rw [if_neg (hg j (List.mem_range.mp hj))]
  rw [this]

lemma allPairs_single {μ : Nat → Nat → ℚ} {nd : Nat} {missed : ℚ}
    (hg : ∀ j, j < nd → ¬ (μ 0 j < missed)) :
    allPairs μ 1 nd missed = [(0, ⟨none, missed⟩)] := by
  have hr : List.range 1 = [0] := rfl
  rw [allPairs, hr]
  simp [trackHyps, hypothesise_all_gated_out hg]

/-- Claim C6: for a single track whose only gated option is the
missed-detection hypothesis (every detection at or beyond the missed
distance, or no detections at all), both associators return the
missed-detection hypothesis for that track, and the caller step from the
tutorials appends the prediction unchanged; no error occurs. -/
theorem missed_detection_fallback {α : Type} (μ : Nat → Nat → ℚ) (nd : Nat)
    (missed : ℚ) (prediction : α) (upd : Nat → α)
    (hg : ∀ j, j < nd → ¬ (μ 0 j < missed)) :
    associateNN μ 1 nd missed = [(0, ⟨none, missed⟩)] ∧
    associateGNN μ 1 nd missed = [(0, ⟨none, missed⟩)] ∧
    applyHyp prediction upd ⟨none, missed⟩ = prediction := by
  refine ⟨?_, ?_, rfl⟩
  · have hr : List.range 1 = [0] := rfl
    rw [associateNN, allPairs_single hg, hr]
    rfl
  · have hr : List.range 1 = [0] := rfl
    rw [associateGNN, gnnCandidates, hr]
    have h0 : choiceLists [0] (trackHyps μ nd missed) =
        [[(0, ⟨none, missed⟩)]] := by
      simp [choiceLists, trackHyps, hypothesise_all_gated_out
        (show ∀ j, j < nd → ¬ (μ 0 j < missed) from hg)]
    rw [h0]
    rfl

/-- Witness for C6 at a concrete input: one detection at distance 5 with
missed distance 3 (beyond the gate), prediction state `0`. -/
theorem missed_detection_fallback_witness :
    (∀ j, j < 1 → ¬ ((fun (_ _ : Nat) => (5:ℚ)) 0 j < 3)) ∧
    (associateNN (fun _ _ => (5:ℚ)) 1 1 3 = [(0, ⟨none, 3⟩)] ∧
      associateGNN (fun _ _ => (5:ℚ)) 1 1 3 = [(0, ⟨none, 3⟩)] ∧
      applyHyp (0:Nat) (fun _ => 1) ⟨none, 3⟩ = 0) :=
  ⟨by intro j hj; show ¬ ((5:ℚ) < 3); decide,
    missed_detection_fallback (fun _ _ => (5:ℚ)) 1 3 0 (fun _ => 1)
      (by intro j hj; show ¬ ((5:ℚ) < 3); decide)⟩

/-! ### The linear-Gaussian Kalman components

States, predictions and measurement predictions are Gaussian beliefs
(spec §3); the predictor and updater are modelled from spec §4.3 and §4.4
over `ℚ`, with time measured in (rational) seconds. -/

/-- A Gaussian belief: mean vector and covariance matrix (spec §3). -/
structure Gauss (n : Nat) where
  mean : Fin n → ℚ
  covar : Matrix (Fin n) (Fin n) ℚ

/-- Transition matrix of a 1D constant-velocity model for the interval `dt`,
as configured in the tutorials (`ConstantVelocity`). -/
def cvF (dt : ℚ) : Matrix (Fin 2) (Fin 2) ℚ := !![1, dt; 0, 1]

/-- Process-noise covariance of the 1D constant-velocity model with noise
diffusion coefficient `q` over the interval `dt`. -/
def cvQ (q dt : ℚ) : Matrix (Fin 2) (Fin 2) ℚ :=
  !![q * dt^3 / 3, q * dt^2 / 2; q * dt^2 / 2, q * dt]

/-- Transition matrix of the tutorials' combined two-axis constant-velocity
model (block diagonal of two `cvF` blocks) in state order (x, vx, y, vy). -/
def combinedF (dt : ℚ) : Matrix (Fin 4) (Fin 4) ℚ :=
  !![1, dt, 0, 0;
     0, 1, 0, 0;
     0, 0, 1, dt;
     0, 0, 0, 1]

/-- Process noise of the combined two-axis constant-velocity model. -/
def combinedQ (q dt : ℚ) : Matrix (Fin 4) (Fin 4) ℚ :=
  !![q * dt^3 / 3, q * dt^2 / 2, 0, 0;
     q * dt^2 / 2, q * dt, 0, 0;
     0, 0, q * dt^3 / 3, q * dt^2 / 2;
     0, 0, q * dt^2 / 2, q * dt]

/-- Modelled from the spec: `KalmanPredictor.predict` (source not in this
repository).  Advances a Gaussian prior to the target time: `x' = F x`,
`P' = F P Fᵀ + Q`, with `F`, `Q` evaluated for the elapsed interval
`t - priorT` (spec §4.3).  Total: defined for every interval, including zero
and negative ones. -/
def predict {n : Nat} (F Q : ℚ → Matrix (Fin n) (Fin n) ℚ) (prior : Gauss n)
    (priorT t : ℚ) : Gauss n :=
  ⟨(F (t - priorT)).mulVec prior.mean,
    F (t - priorT) * prior.covar * (F (t - priorT))ᵀ + Q (t - priorT)⟩

/-- Innovation covariance `S = H P' Hᵀ + R` (spec §4.4). -/
def innovCov {n m : Nat} (H : Matrix (Fin m) (Fin n) ℚ)
    (R : Matrix (Fin m) (Fin m) ℚ) (pred : Gauss n) : Matrix (Fin m) (Fin m) ℚ :=
  H * pred.covar * Hᵀ + R

/-- Modelled from the spec: `KalmanUpdater.predict_measurement` (source not in
this repository): measurement-space mean `H x'` and covariance `S` (spec
§4.4). -/
def predictMeasurement {n m : Nat} (H : Matrix (Fin m) (Fin n) ℚ)
    (R : Matrix (Fin m) (Fin m) ℚ) (pred : Gauss n) : Gauss m :=
  ⟨H.mulVec pred.mean, innovCov H R pred⟩

/-- Executable inverse of a square rational matrix with nonzero determinant
(equal to Mathlib's noncomputable `S⁻¹` there). -/
def qInv {m : Nat} (S : Matrix (Fin m) (Fin m) ℚ) : Matrix (Fin m) (Fin m) ℚ :=
  S.det⁻¹ • S.adjugate

/-- Modelled from the spec: `KalmanUpdater.update` (source not in this
repository).  With a detection `z` present: gain `K = P' Hᵀ S⁻¹`, posterior
mean `x' + K (z - H x')`, posterior covariance `(I - K H) P'`; fails with a
numeric error — modelled as `none` — when `S` is singular (spec §4.4). -/
def update {n m : Nat} (H : Matrix (Fin m) (Fin n) ℚ)
    (R : Matrix (Fin m) (Fin m) ℚ) (pred : Gauss n) (z : Fin m → ℚ) :
    Option (Gauss n) :=
  if (innovCov H R pred).det = 0 then none
  else
    some ⟨pred.mean + (pred.covar * Hᵀ * qInv (innovCov H R pred)).mulVec
        (z - H.mulVec pred.mean),
      (1 - pred.covar * Hᵀ * qInv (innovCov H R pred) * H) * pred.covar⟩

/-- Quadratic form of a matrix. -/
def qform {m : Nat} (M : Matrix (Fin m) (Fin m) ℚ) (x : Fin m → ℚ) : ℚ :=
  x ⬝ᵥ M.mulVec x

/-- Positive definiteness over `ℚ`, stated elementarily. -/
def PosDefQ {m : Nat} (M : Matrix (Fin m) (Fin m) ℚ) : Prop :=
  ∀ x : Fin m → ℚ, x ≠ 0 → 0 < qform M x

/-- Positive semidefiniteness over `ℚ`, stated elementarily. -/
def PosSemidefQ {m : Nat} (M : Matrix (Fin m) (Fin m) ℚ) : Prop :=
  ∀ x : Fin m → ℚ, 0 ≤ qform M x

/-- Claim C7: the predictor returns the Gaussian with mean `F x` and
covariance `F P Fᵀ + Q`, with `F` and `Q` evaluated for the elapsed interval;
it is defined for every target time, including zero and negative elapsed
intervals (no validation error), and for the tutorials' combined
constant-velocity model the predicted mean advances each position by the
elapsed interval times its velocity. -/
theorem predictor_contract {n : Nat} (F Q : ℚ → Matrix (Fin n) (Fin n) ℚ)
    (prior : Gauss n) (priorT t : ℚ) :
    (predict F Q prior priorT t).mean = (F (t - priorT)).mulVec prior.mean ∧
    (predict F Q prior priorT t).covar =
      F (t - priorT) * prior.covar * (F (t - priorT))ᵀ + Q (t - priorT) ∧
    (∀ (q : ℚ) (p4 : Gauss 4),
      (predict combinedF (combinedQ q) p4 priorT t).mean =
        ![p4.mean 0 + (t - priorT) * p4.mean 1, p4.mean 1,
          p4.mean 2 + (t - priorT) * p4.mean 3, p4.mean 3]) := by
  refine ⟨rfl, rfl, ?_⟩
  intro q p4
  funext i
  fin_cases i <;>
    simp [predict, combinedF, mulVec, dotProduct, Fin.sum_univ_four, mul_comm]

/-! ### The updater -/

lemma qInv_eq_inv {m : Nat} (S : Matrix (Fin m) (Fin m) ℚ) : qInv S = S⁻¹ := by
  rw [qInv, Matrix.inv_def, Ring.inverse_eq_inv']

lemma qInv_mul_self {m : Nat} {S : Matrix (Fin m) (Fin m) ℚ} (h : S.det ≠ 0) :
    qInv S * S = 1 := by
  rw [qInv_eq_inv]
  exact Matrix.nonsing_inv_mul S (isUnit_iff_ne_zero.mpr h)

lemma self_mul_qInv {m : Nat} {S : Matrix (Fin m) (Fin m) ℚ} (h : S.det ≠ 0) :
    S * qInv S = 1 := by
  rw [qInv_eq_inv]
  exact Matrix.mul_nonsing_inv S (isUnit_iff_ne_zero.mpr h)

/-- Claim C4: with a detection present, the update returns the Gaussian with
mean `x' + K (z - H x')` and covariance `(I - K H) P'`, where the gain `K`
genuinely solves `K S = P' Hᵀ` (i.e. `K = P' Hᵀ S⁻¹`), whenever the
innovation covariance `S` is invertible; when `S` is singular the update
fails with a numeric error (returns no state). -/
theorem updater_contract {n m : Nat} (H : Matrix (Fin m) (Fin n) ℚ)
    (R : Matrix (Fin m) (Fin m) ℚ) (pred : Gauss n) (z : Fin m → ℚ) :
    ((innovCov H R pred).det = 0 → update H R pred z = none) ∧
    ((innovCov H R pred).det ≠ 0 →
      ∃ K, K * innovCov H R pred = pred.covar * Hᵀ ∧
        update H R pred z =
          some ⟨pred.mean + K.mulVec (z - H.mulVec pred.mean),
            (1 - K * H) * pred.covar⟩) := by
  constructor
  · intro h
    rw [update, if_pos h]
  · intro h
    refine ⟨pred.covar * Hᵀ * qInv (innovCov H R pred), ?_, ?_⟩
    · rw [Matrix.mul_assoc, qInv_mul_self h, Matrix.mul_one]
    · rw [update, if_neg h]

lemma innovCov_one1 :
    innovCov (!![1] : Matrix (Fin 1) (Fin 1) ℚ) !![1]
      (⟨![0], !![1]⟩ : Gauss 1) = !![2] := by
  ext i j
  fin_cases i
  fin_cases j
  norm_num [innovCov, Matrix.mul_apply, Fin.sum_univ_one, Matrix.vecHead,
    Matrix.transpose_apply]

lemma innovCov_zero1 :
    innovCov (!![0] : Matrix (Fin 1) (Fin 1) ℚ) !![0]
      (⟨![0], !![0]⟩ : Gauss 1) = !![0] := by
  ext i j
  fin_cases i
  fin_cases j
  simp [innovCov, Matrix.mul_apply, Fin.sum_univ_one]

/-- Witness for C4: a one-dimensional update with `S = [[2]]` (invertible)
produces a posterior, and one with `S = [[0]]` (singular) fails. -/
theorem updater_contract_witness :
    ((innovCov (!![1] : Matrix (Fin 1) (Fin 1) ℚ) !![1]
        (⟨![0], !![1]⟩ : Gauss 1)).det ≠ 0 ∧
      (∃ K, K * innovCov (!![1] : Matrix (Fin 1) (Fin 1) ℚ) !![1]
            (⟨![0], !![1]⟩ : Gauss 1) =
          (⟨![0], !![1]⟩ : Gauss 1).covar * (!![1] : Matrix (Fin 1) (Fin 1) ℚ)ᵀ ∧
        update (!![1] : Matrix (Fin 1) (Fin 1) ℚ) !![1]
            (⟨![0], !![1]⟩ : Gauss 1) ![1] =
          some ⟨(⟨![0], !![1]⟩ : Gauss 1).mean +
              K.mulVec (![1] - (!![1] : Matrix (Fin 1) (Fin 1) ℚ).mulVec
                (⟨![0], !![1]⟩ : Gauss 1).mean),
            (1 - K * !![1]) * (⟨![0], !![1]⟩ : Gauss 1).covar⟩)) ∧
    ((innovCov (!![0] : Matrix (Fin 1) (Fin 1) ℚ) !![0]
        (⟨![0], !![0]⟩ : Gauss 1)).det = 0 ∧
      update (!![0] : Matrix (Fin 1) (Fin 1) ℚ) !![0]
        (⟨![0], !![0]⟩ : Gauss 1) ![0] = none) := by
  have hdet2 : (innovCov (!![1] : Matrix (Fin 1) (Fin 1) ℚ) !![1]
      (⟨![0], !![1]⟩ : Gauss 1)).det ≠ 0 := by
    rw [innovCov_one1]
    simp [Matrix.det_fin_one]
  have hdet0 : (innovCov (!![0] : Matrix (Fin 1) (Fin 1) ℚ) !![0]
      (⟨![0], !![0]⟩ : Gauss 1)).det = 0 := by
    rw [innovCov_zero1]
    simp [Matrix.det_fin_one]
  exact ⟨⟨hdet2, (updater_contract !![1] !![1] ⟨![0], !![1]⟩ ![1]).2 hdet2⟩,
    ⟨hdet0, (updater_contract !![0] !![0] ⟨![0], !![0]⟩ ![0]).1 hdet0⟩⟩

/-! ### Quadratic forms and the perfect-detection update -/

lemma qform_zero {m : Nat} (M : Matrix (Fin m) (Fin m) ℚ) : qform M 0 = 0 := by
  simp [qform]

lemma posdefQ_posSemidefQ {m : Nat} {M : Matrix (Fin m) (Fin m) ℚ}
    (h : PosDefQ M) : PosSemidefQ M := by
  intro x
  by_cases hx : x = 0
  · subst hx
    simp [qform_zero]
  · exact (h x hx).le

lemma qform_conj {n m : Nat} (P : Matrix (Fin n) (Fin n) ℚ)
    (H : Matrix (Fin m) (Fin n) ℚ) (x : Fin m → ℚ) :
    qform (H * P * Hᵀ) x = qform P (Hᵀ.mulVec x) := by
  rw [qform, qform, ← Matrix.mulVec_mulVec, ← Matrix.mulVec_mulVec,
    Matrix.dotProduct_mulVec, ← Matrix.mulVec_transpose]

lemma qform_add {m : Nat} (A B : Matrix (Fin m) (Fin m) ℚ) (x : Fin m → ℚ) :
    qform (A + B) x = qform A x + qform B x := by
  simp [qform, Matrix.add_mulVec, dotProduct_add]

lemma innovCov_posdef {n m : Nat} {H : Matrix (Fin m) (Fin n) ℚ}
    {R : Matrix (Fin m) (Fin m) ℚ} {pred : Gauss n}
    (hP : PosSemidefQ pred.covar) (hR : PosDefQ R) :
    PosDefQ (innovCov H R pred) := by
  intro x hx
  rw [innovCov, qform_add, qform_conj]
  have h1 := hP (Hᵀ.mulVec x)
  have h2 := hR x hx
  linarith

lemma posdefQ_det_ne_zero {m : Nat} {S : Matrix (Fin m) (Fin m) ℚ}
    (hS : PosDefQ S) : S.det ≠ 0 := by
  intro hdet
  obtain ⟨v, hv, hmul⟩ := Matrix.exists_mulVec_eq_zero_iff.mpr hdet
  have := hS v hv
  rw [qform, hmul] at this
  simp at this

lemma qInv_posdef {m : Nat} {S : Matrix (Fin m) (Fin m) ℚ} (hS : PosDefQ S) :
    PosDefQ (qInv S) := by
  intro x hx
  have hdet := posdefQ_det_ne_zero hS
  have hxy : S.mulVec ((qInv S).mulVec x) = x := by
    rw [Matrix.mulVec_mulVec, self_mul_qInv hdet, Matrix.one_mulVec]
  have hyne : (qInv S).mulVec x ≠ 0 := by
    intro h0
    rw [h0, Matrix.mulVec_zero] at hxy
    exact hx hxy.symm
  calc qform (qInv S) x = x ⬝ᵥ (qInv S).mulVec x := rfl
    _ = S.mulVec ((qInv S).mulVec x) ⬝ᵥ (qInv S).mulVec x := by rw [hxy]
    _ = (qInv S).mulVec x ⬝ᵥ S.mulVec ((qInv S).mulVec x) := dotProduct_comm _ _
    _ > 0 := hS _ hyne

lemma conj_diag {n m : Nat} (M : Matrix (Fin m) (Fin m) ℚ)
    (A : Matrix (Fin m) (Fin n) ℚ) (j : Fin n) :
    (Aᵀ * M * A) j j = qform M (fun i => A i j) := by
  simp only [Matrix.mul_apply, Matrix.transpose_apply, Finset.sum_mul, qform,
    dotProduct, Matrix.mulVec, Finset.mul_sum]
  rw [Finset.sum_comm]
  apply Finset.sum_congr rfl
  intro k _
  apply Finset.sum_congr rfl
  intro i _
  ring

lemma trace_conj_pos {n m : Nat} {M : Matrix (Fin m) (Fin m) ℚ}
    {A : Matrix (Fin m) (Fin n) ℚ} (hM : PosDefQ M) (hA : A ≠ 0) :
    0 < (Aᵀ * M * A).trace := by
  obtain ⟨i0, j0, hij⟩ : ∃ i j, A i j ≠ 0 := by
    by_contra hc
    push_neg at hc
    apply hA
    ext i j
    simpa using hc i j
  have hcol : (fun i => A i j0) ≠ 0 := fun h0 => hij (congrFun h0 i0)
  rw [Matrix.trace]
  refine Finset.sum_pos' (fun j _ => ?_) ⟨j0, Finset.mem_univ _, ?_⟩
  · rw [Matrix.diag, conj_diag]
    exact posdefQ_posSemidefQ hM _
  · rw [Matrix.diag, conj_diag]
    exact hM _ hcol

/-- Claim C5 (amended): for a prediction with symmetric positive-semidefinite
covariance and positive-definite measurement noise, updating on the exact
predicted measurement mean yields the prediction mean back, and — provided
`H P'` is nonzero — a posterior covariance of strictly smaller trace. -/
theorem update_perfect_detection {n m : Nat} (H : Matrix (Fin m) (Fin n) ℚ)
    (R : Matrix (Fin m) (Fin m) ℚ) (pred : Gauss n)
    (hR : PosDefQ R) (hsym : pred.covar.IsSymm) (hpsd : PosSemidefQ pred.covar)
    (hHP : H * pred.covar ≠ 0) :
    ∃ g, update H R pred (H.mulVec pred.mean) = some g ∧
      g.mean = pred.mean ∧ g.covar.trace < pred.covar.trace := by
  have hSpd : PosDefQ (innovCov H R pred) := innovCov_posdef hpsd hR
  have hdet : (innovCov H R pred).det ≠ 0 := posdefQ_det_ne_zero hSpd
  refine ⟨⟨pred.mean, (1 - pred.covar * Hᵀ * qInv (innovCov H R pred) * H) *
      pred.covar⟩, ?_, rfl, ?_⟩
  · rw [update, if_neg hdet, sub_self, Matrix.mulVec_zero, add_zero]
  · have hKHP : pred.covar * Hᵀ * qInv (innovCov H R pred) * H * pred.covar =
        (H * pred.covar)ᵀ * qInv (innovCov H R pred) * (H * pred.covar) := by
      rw [Matrix.transpose_mul, hsym.eq]
      exact Matrix.mul_assoc _ _ _
    have htr : ((1 - pred.covar * Hᵀ * qInv (innovCov H R pred) * H) *
        pred.covar).trace = pred.covar.trace -
        ((H * pred.covar)ᵀ * qInv (innovCov H R pred) * (H * pred.covar)).trace := by
      rw [Matrix.sub_mul, Matrix.one_mul, Matrix.trace_sub, hKHP]
    rw [htr]
    have hpos := trace_conj_pos (qInv_posdef hSpd) hHP
    linarith

lemma posDefQ_one1 : PosDefQ (!![1] : Matrix (Fin 1) (Fin 1) ℚ) := by
  intro x hx
  have hx0 : x 0 ≠ 0 := by
    intro h
    apply hx
    funext i
    fin_cases i
    exact h
  have hq : qform (!![1] : Matrix (Fin 1) (Fin 1) ℚ) x = x 0 * x 0 := by
    simp [qform, dotProduct, Matrix.mulVec, Fin.sum_univ_one]
  rw [hq]
  exact mul_self_pos.mpr hx0

/-- The degenerate prediction used to refute the strict trace decrease: a
valid Gaussian with the (positive-semidefinite) zero covariance. -/
def flatPred : Gauss 1 := ⟨![0], !![0]⟩

lemma flatPred_covar_zero : flatPred.covar = 0 := by
  ext i j
  fin_cases i
  fin_cases j
  simp [flatPred]

/-- Counterexample to C5 as stated: with the valid prediction `flatPred`
(zero covariance) and positive-definite `R = [[1]]`, the update on the exact
predicted measurement succeeds and returns the prediction mean, but the
posterior covariance trace equals the prediction covariance trace — it is not
strictly smaller. -/
theorem update_trace_cex :
    PosDefQ (!![1] : Matrix (Fin 1) (Fin 1) ℚ) ∧
    flatPred.covar.IsSymm ∧ PosSemidefQ flatPred.covar ∧
    ∃ g, update (!![1] : Matrix (Fin 1) (Fin 1) ℚ) !![1] flatPred
        ((!![1] : Matrix (Fin 1) (Fin 1) ℚ).mulVec flatPred.mean) = some g ∧
      g.mean = flatPred.mean ∧ ¬ (g.covar.trace < flatPred.covar.trace) := by
  have hS : innovCov (!![1] : Matrix (Fin 1) (Fin 1) ℚ) !![1] flatPred = !![1] := by
    rw [innovCov, flatPred_covar_zero, Matrix.mul_zero, Matrix.zero_mul, zero_add]
  have hdet : (innovCov (!![1] : Matrix (Fin 1) (Fin 1) ℚ) !![1] flatPred).det ≠ 0 := by
    rw [hS]
    simp [Matrix.det_fin_one]
  refine ⟨posDefQ_one1, ?_, ?_, ?_⟩
  · rw [Matrix.IsSymm, flatPred_covar_zero, Matrix.transpose_zero]
  · intro x
    rw [flatPred_covar_zero]
    simp [qform]
  · refine ⟨⟨flatPred.mean, (1 - flatPred.covar *
        (!![1] : Matrix (Fin 1) (Fin 1) ℚ)ᵀ *
        qInv (innovCov !![1] !![1] flatPred) * !![1]) * flatPred.covar⟩,
      ?_, rfl, ?_⟩
    · rw [update, if_neg hdet, sub_self, Matrix.mulVec_zero, add_zero]
    · have hcov : ((1 - flatPred.covar * (!![1] : Matrix (Fin 1) (Fin 1) ℚ)ᵀ *
          qInv (innovCov !![1] !![1] flatPred) * !![1]) * flatPred.covar).trace
          = 0 := by
        rw [flatPred_covar_zero, Matrix.mul_zero, Matrix.trace_zero]
      rw [hcov, flatPred_covar_zero, Matrix.trace_zero]
      exact lt_irrefl 0

/-- Witness for the amended C5 at a concrete input: `H = R = P' = [[1]]`. -/
theorem update_perfect_detection_witness :
    PosDefQ (!![1] : Matrix (Fin 1) (Fin 1) ℚ) ∧
    ((⟨![0], !![1]⟩ : Gauss 1)).covar.IsSymm ∧
    PosSemidefQ ((⟨![0], !![1]⟩ : Gauss 1)).covar ∧
    (!![1] : Matrix (Fin 1) (Fin 1) ℚ) * ((⟨![0], !![1]⟩ : Gauss 1)).covar ≠ 0 ∧
    ∃ g, update !![1] !![1] (⟨![0], !![1]⟩ : Gauss 1)
        ((!![1] : Matrix (Fin 1) (Fin 1) ℚ).mulVec
          ((⟨![0], !![1]⟩ : Gauss 1)).mean) = some g ∧
      g.mean = ((⟨![0], !![1]⟩ : Gauss 1)).mean ∧
      g.covar.trace < ((⟨![0], !![1]⟩ : Gauss 1)).covar.trace := by
  have hsym : ((⟨![0], !![1]⟩ : Gauss 1)).covar.IsSymm := by
    rw [Matrix.IsSymm]
    ext i j
    fin_cases i
    fin_cases j
    rfl
  have hpsd : PosSemidefQ ((⟨![0], !![1]⟩ : Gauss 1)).covar :=
    posdefQ_posSemidefQ posDefQ_one1
  have hHP : (!![1] : Matrix (Fin 1) (Fin 1) ℚ) *
      ((⟨![0], !![1]⟩ : Gauss 1)).covar ≠ 0 := by
    intro h
    have h00 := congrFun (congrFun h 0) 0
    norm_num [Matrix.mul_apply, Fin.sum_univ_one] at h00
  exact ⟨posDefQ_one1, hsym, hpsd, hHP,
    update_perfect_detection !![1] !![1] ⟨![0], !![1]⟩ posDefQ_one1 hsym hpsd hHP⟩

/-! ### The interpolation utility

The time-resampling utility is out of the tracking core's scope (spec §1) and
its implementation is not in this repository; only its tests are.  It is
modelled here from the spec's description — interpolating an already-built
sequence of estimates onto arbitrary timestamps — with timestamps as rational
seconds. -/

/-- A state of a state mutable sequence: timestamp, state vector, and the
covariance for Gaussian states (`none` for plain states). -/
structure IState where
  timestamp : ℚ
  sv : List ℚ
  covar : Option (List (List ℚ))
deriving DecidableEq

/-- Timestamp of the first state (0 for an empty sequence). -/
def headTime : List IState → ℚ
  | [] => 0
  | s :: _ => s.timestamp

/-- Timestamp of the last state (0 for an empty sequence). -/
def lastTime : List IState → ℚ
  | [] => 0
  | [s] => s.timestamp
  | _ :: s2 :: rest => lastTime (s2 :: rest)

/-- Whether a requested time lies inside the sequence's timestamp range. -/
def inRange (sms : List IState) (t : ℚ) : Bool :=
  !sms.isEmpty && decide (headTime sms ≤ t) && decide (t ≤ lastTime sms)

/-- Linear interpolation of the state vector between states `a` and `b`. -/
def lerpVec (a b : IState) (t : ℚ) : List ℚ :=
  List.zipWith (fun x y =>
    x + (t - a.timestamp) / (b.timestamp - a.timestamp) * (y - x)) a.sv b.sv

/-- Walk to the segment containing `t` and interpolate there; the output
carries the covariance (a non-interpolated property) of the previous state:
the last one with timestamp at or before `t`. -/
def interpAt (prev : IState) : List IState → ℚ → IState
  | [], t => ⟨t, prev.sv, prev.covar⟩
  | s :: rest, t =>
    if t < s.timestamp then ⟨t, lerpVec prev s t, prev.covar⟩
    else interpAt s rest t

/-- Interpolate one in-range time against the sequence. -/
def interpTop (sms : List IState) (t : ℚ) : IState :=
  match sms with
  | [] => ⟨t, [], none⟩
  | s :: rest => interpAt s rest t

/-- Modelled from the spec: `interpolate_state_mutable_sequence` called with a
list of timestamps (source not in this repository).  Out-of-range times raise
a `UserWarning` (the boolean) and are dropped; the in-range times are
interpolated and returned as a sequence. -/
def interpolateSMS (sms : List IState) (times : List ℚ) : Bool × List IState :=
  (times.any fun t => !(inRange sms t),
    (times.filter (inRange sms)).map (interpTop sms))

/-- Modelled from the spec: `interpolate_state_mutable_sequence` called with a
single timestamp (source not in this repository): build the sequence result
for `[t]` and take its last state; on an empty result that access raises an
`IndexError`, modelled as `none`. -/
def interpolateSingle (sms : List IState) (t : ℚ) : Option IState :=
  (interpolateSMS sms [t]).2.getLast?

/-- The sequence's timestamps are strictly increasing. -/
def timeSorted (sms : List IState) : Prop :=
  List.Chain' (fun a b => a.timestamp < b.timestamp) sms

lemma chain_head_le : ∀ {k : Nat} {l : List IState} {s a : IState},
    timeSorted (s :: l) → (s :: l)[k]? = some a → s.timestamp ≤ a.timestamp := by
  intro k
  induction k with
  | zero =>
    intro l s a _ hget
    simp only [List.getElem?_cons_zero, Option.some.injEq] at hget
    exact hget ▸ le_refl _
  | succ k ih =>
    intro l s a hsort hget
    simp only [List.getElem?_cons_succ] at hget
    cases l with
    | nil => simp at hget
    | cons u l2 =>
      have hcons := List.chain'_cons.mp hsort
      exact le_trans hcons.1.le (ih hcons.2 hget)

lemma chain_head_le_last : ∀ {l : List IState} {s : IState},
    timeSorted (s :: l) → s.timestamp ≤ lastTime (s :: l) := by
  intro l
  induction l with
  | nil =>
    intro s _
    exact le_refl _
  | cons u l2 ih =>
    intro s hsort
    have hcons := List.chain'_cons.mp hsort
    calc s.timestamp ≤ u.timestamp := hcons.1.le
      _ ≤ lastTime (u :: l2) := ih hcons.2
      _ = lastTime (s :: u :: l2) := rfl

lemma lastTime_eq : ∀ {l : List IState} {s a : IState},
    (s :: l).getLast? = some a → lastTime (s :: l) = a.timestamp := by
  intro l
  induction l with
  | nil =>
    intro s a hlast
    simp only [List.getLast?_singleton, Option.some.injEq] at hlast
    rw [← hlast]
    rfl
  | cons u l2 ih =>
    intro s a hlast
    rw [List.getLast?_cons_cons] at hlast
    exact ih hlast

lemma interpAt_enclosing :
    ∀ (k : Nat) (rest : List IState) (pre a b : IState) (t : ℚ),
      timeSorted (pre :: rest) →
      (pre :: rest)[k]? = some a → (pre :: rest)[k+1]? = some b →
      a.timestamp ≤ t → t < b.timestamp →
      interpAt pre rest t = ⟨t, lerpVec a b t, a.covar⟩ := by
  intro k
  induction k with
  | zero =>
    intro rest pre a b t hsort hga hgb hat htb
    simp only [List.getElem?_cons_zero, Option.some.injEq] at hga
    subst hga
    simp only [List.getElem?_cons_succ] at hgb
    cases rest with
    | nil => simp at hgb
    | cons s rest2 =>
      simp only [List.getElem?_cons_zero, Option.some.injEq] at hgb
      subst hgb
      rw [interpAt, if_pos htb]
  | succ k ih =>
    intro rest pre a b t hsort hga hgb hat htb
    simp only [List.getElem?_cons_succ] at hga hgb
    cases rest with
    | nil => simp at hga
    | cons s rest2 =>
      have hsa : s.timestamp ≤ a.timestamp :=
        chain_head_le (List.chain'_cons.mp hsort).2 hga
      rw [interpAt, if_neg (not_lt.mpr (le_trans hsa hat))]
      exact ih rest2 s a b t (List.chain'_cons.mp hsort).2 hga hgb hat htb

lemma interpAt_last :
    ∀ (rest : List IState) (pre a : IState) (t : ℚ),
      timeSorted (pre :: rest) → (pre :: rest).getLast? = some a →
      a.timestamp ≤ t → interpAt pre rest t = ⟨t, a.sv, a.covar⟩ := by
  intro rest
  induction rest with
  | nil =>
    intro pre a t _ hlast hat
    simp only [List.getLast?_singleton, Option.some.injEq] at hlast
    subst hlast
    rfl
  | cons s rest2 ih =>
    intro pre a t hsort hlast hat
    rw [List.getLast?_cons_cons] at hlast
    have hsl : s.timestamp ≤ lastTime (s :: rest2) :=
      chain_head_le_last (List.chain'_cons.mp hsort).2
    rw [lastTime_eq hlast] at hsl
    rw [interpAt, if_neg (not_lt.mpr (le_trans hsl hat))]
    exact ih s a t (List.chain'_cons.mp hsort).2 hlast hat

lemma interpAt_covar_mem :
    ∀ (rest : List IState) (pre : IState) (t : ℚ),
      ∃ c ∈ pre :: rest, (interpAt pre rest t).covar = c.covar := by
  intro rest
  induction rest with
  | nil =>
    intro pre t
    exact ⟨pre, List.mem_cons_self _ _, rfl⟩
  | cons s rest2 ih =>
    intro pre t
    rw [interpAt]
    by_cases ht : t < s.timestamp
    · rw [if_pos ht]
      exact ⟨pre, List.mem_cons_self _ _, rfl⟩
    · rw [if_neg ht]
      obtain ⟨c, hc, hcov⟩ := ih s t
      exact ⟨c, List.mem_cons_of_mem _ hc, hcov⟩

/-- Claim C8: a single requested time strictly outside the sequence's
timestamp range makes the single-timestamp call fail with an `IndexError`,
while a list request containing such a time issues a `UserWarning` and still
returns a result. -/
theorem interpolate_out_of_range (sms : List IState) (times : List ℚ) (t : ℚ)
    (hout : t < headTime sms ∨ lastTime sms < t)
    (hmem : t ∈ times) :
    interpolateSingle sms t = none ∧
    (interpolateSMS sms times).1 = true ∧
    (interpolateSMS sms times).2 =
      (times.filter (inRange sms)).map (interpTop sms) := by
  have hp : inRange sms t = false := by
    rw [inRange]
    rcases hout with h | h
    · simp [not_le.mpr h]
    · simp [not_le.mpr h]
  refine ⟨?_, ?_, rfl⟩
  · rw [interpolateSingle, interpolateSMS]
    simp [List.filter, hp]
  · rw [interpolateSMS]
    exact List.any_eq_true.mpr ⟨t, hmem, by simp [hp]⟩

/-- Witness for C8 at a concrete input: two states at times 0 and 1, with
the out-of-range time 2 requested alone and inside a list. -/
theorem interpolate_out_of_range_witness :
    ([⟨0, [0], none⟩, ⟨1, [1], none⟩] : List IState) ≠ [] ∧
    ((2:ℚ) < headTime [⟨0, [0], none⟩, ⟨1, [1], none⟩] ∨
      lastTime [⟨0, [0], none⟩, ⟨1, [1], none⟩] < 2) ∧
    (2:ℚ) ∈ [(0:ℚ), 2] ∧
    (interpolateSingle [⟨0, [0], none⟩, ⟨1, [1], none⟩] 2 = none ∧
      (interpolateSMS [⟨0, [0], none⟩, ⟨1, [1], none⟩] [0, 2]).1 = true ∧
      (interpolateSMS [⟨0, [0], none⟩, ⟨1, [1], none⟩] [0, 2]).2 =
        (([(0:ℚ), 2]).filter (inRange [⟨0, [0], none⟩, ⟨1, [1], none⟩])).map
          (interpTop [⟨0, [0], none⟩, ⟨1, [1], none⟩])) :=
  ⟨by decide, Or.inr (by decide), by decide,
    interpolate_out_of_range _ _ _ (Or.inr (by decide)) (by decide)⟩

/-- Claim C9: a list of in-range timestamps yields a sequence (no warning,
one state per requested time, in order), while a single in-range timestamp
yields a single state; in both shapes the state vectors are linearly
interpolated between the enclosing states of the input sequence. -/
theorem interpolate_in_range (sms : List IState) (times : List ℚ)
    (hsort : timeSorted sms)
    (hin : ∀ u ∈ times, inRange sms u = true) :
    (interpolateSMS sms times).1 = false ∧
    (interpolateSMS sms times).2 = times.map (interpTop sms) ∧
    (∀ t, inRange sms t = true →
      interpolateSingle sms t = some (interpTop sms t)) ∧
    (∀ (k : Nat) (a b : IState) (t : ℚ),
      sms[k]? = some a → sms[k+1]? = some b →
      a.timestamp ≤ t → t < b.timestamp →
      interpTop sms t = ⟨t, lerpVec a b t, a.covar⟩) := by
  refine ⟨?_, ?_, ?_, ?_⟩
  · rw [interpolateSMS]
    simp only [List.any_eq_false]
    intro u hu
    simp [hin u hu]
  · rw [interpolateSMS, List.filter_eq_self.mpr hin]
  · intro t ht
    rw [interpolateSingle, interpolateSMS]
    simp [List.filter, ht]
  · intro k a b t hga hgb hat htb
    cases sms with
    | nil => simp at hga
    | cons s rest =>
      rw [interpTop]
      exact interpAt_enclosing k rest s a b t hsort hga hgb hat htb

/-- Witness for C9 at a concrete input: states at times 0 and 2 with values 0
and 4, interpolated at time 1. -/
theorem interpolate_in_range_witness :
    timeSorted [⟨0, [0], none⟩, ⟨2, [4], none⟩] ∧
    (∀ u ∈ [(1:ℚ)], inRange [⟨0, [0], none⟩, ⟨2, [4], none⟩] u = true) ∧
    ([⟨0, [0], none⟩, ⟨2, [4], none⟩] : List IState)[0]? =
      some ⟨0, [0], none⟩ ∧
    ([⟨0, [0], none⟩, ⟨2, [4], none⟩] : List IState)[1]? =
      some ⟨2, [4], none⟩ ∧
    (interpolateSMS [⟨0, [0], none⟩, ⟨2, [4], none⟩] [1]).1 = false ∧
    interpTop [⟨0, [0], none⟩, ⟨2, [4], none⟩] 1 =
      ⟨1, lerpVec ⟨0, [0], none⟩ ⟨2, [4], none⟩ 1,
        (⟨0, [0], none⟩ : IState).covar⟩ := by
  have hsort : timeSorted [(⟨0, [0], none⟩ : IState), ⟨2, [4], none⟩] := by
    rw [timeSorted]
    exact List.chain'_cons.mpr ⟨show (0:ℚ) < 2 by norm_num,
      List.chain'_singleton _⟩
  have hin : ∀ u ∈ [(1:ℚ)], inRange [(⟨0, [0], none⟩ : IState), ⟨2, [4], none⟩]
      u = true := by decide
  have hmain := interpolate_in_range _ [1] hsort hin
  exact ⟨hsort, hin, by decide, by decide, hmain.1,
    hmain.2.2.2 0 ⟨0, [0], none⟩ ⟨2, [4], none⟩ 1 (by decide) (by decide)
      (by decide) (by decide)⟩

/-- Claim C10: the interpolation does not interpolate covariances: every
output state carries the covariance of the previous input state (the last one
at or before the requested time, i.e. the left end of the enclosing segment);
at a time exactly matching an input state's timestamp the output covariance
is that state's covariance; and Gaussian states stay Gaussian (every output
has a covariance whenever every input does). -/
theorem interpolate_covariance (sms : List IState) (hsort : timeSorted sms) :
    (∀ (k : Nat) (a b : IState) (t : ℚ),
      sms[k]? = some a → sms[k+1]? = some b →
      a.timestamp ≤ t → t < b.timestamp →
      (interpTop sms t).covar = a.covar) ∧
    (∀ (k : Nat) (a : IState), sms[k]? = some a →
      (interpTop sms a.timestamp).covar = a.covar) ∧
    ((∀ s ∈ sms, s.covar.isSome = true) →
      ∀ (times : List ℚ), ∀ s2 ∈ (interpolateSMS sms times).2,
        s2.covar.isSome = true) := by
  refine ⟨?_, ?_, ?_⟩
  · intro k a b t hga hgb hat htb
    cases sms with
    | nil => simp at hga
    | cons s rest =>
      rw [interpTop, interpAt_enclosing k rest s a b t hsort hga hgb hat htb]
  · intro k a hga
    cases sms with
    | nil => simp at hga
    | cons s rest =>
      cases hgb : (s :: rest)[k+1]? with
      | some b =>
        have hk : k < (s :: rest).length := (List.getElem?_eq_some.mp hga).1
        have hk1 : k + 1 < (s :: rest).length := (List.getElem?_eq_some.mp hgb).1
        have hab : a.timestamp < b.timestamp := by
          have hchain := List.chain'_iff_get.mp hsort k (by omega)
          have ha2 : (s :: rest).get ⟨k, by omega⟩ = a := by
            have := (List.getElem?_eq_some.mp hga).2
            simpa [List.get_eq_getElem] using this
          have hb2 : (s :: rest).get ⟨k + 1, by omega⟩ = b := by
            have := (List.getElem?_eq_some.mp hgb).2
            simpa [List.get_eq_getElem] using this
          rw [ha2, hb2] at hchain
          exact hchain
        rw [interpTop, interpAt_enclosing k rest s a b a.timestamp hsort hga hgb
          (le_refl _) hab]
      | none =>
        have hk : k < (s :: rest).length := (List.getElem?_eq_some.mp hga).1
        have hk1 : ¬ (k + 1 < (s :: rest).length) := by
          intro hcon
          rw [List.getElem?_eq_getElem hcon] at hgb
          simp at hgb
        have hlen : (s :: rest).length = k + 1 := by omega
        have hlast : (s :: rest).getLast? = some a := by
          rw [List.getLast?_eq_getElem?, hlen]
          simpa using hga
        rw [interpTop, interpAt_last rest s a a.timestamp hsort hlast (le_refl _)]
  · intro hall times s2 hs2
    rw [interpolateSMS] at hs2
    rcases List.mem_map.mp hs2 with ⟨t, htmem, rfl⟩
    have htr : inRange sms t = true := List.of_mem_filter htmem
    cases sms with
    | nil =>
      rw [inRange] at htr
      simp at htr
    | cons s rest =>
      rw [interpTop]
      obtain ⟨c, hc, hcov⟩ := interpAt_covar_mem rest s t
      rw [hcov]
      exact hall c hc

/-- Witness for C10 at a concrete input: Gaussian states at times 0 and 2
with covariances `[[0]]` and `[[2]]`, checked on the segment and at the exact
matching time 2. -/
theorem interpolate_covariance_witness :
    timeSorted [⟨0, [0], some [[0]]⟩, ⟨2, [4], some [[2]]⟩] ∧
    ((interpTop [⟨0, [0], some [[0]]⟩, ⟨2, [4], some [[2]]⟩] 1).covar =
        some [[0]] ∧
      (interpTop [⟨0, [0], some [[0]]⟩, ⟨2, [4], some [[2]]⟩] 2).covar =
        some [[2]]) := by
  have hsort : timeSorted [(⟨0, [0], some [[0]]⟩ : IState),
      ⟨2, [4], some [[2]]⟩] := by
    rw [timeSorted]
    exact List.chain'_cons.mpr ⟨show (0:ℚ) < 2 by norm_num,
      List.chain'_singleton _⟩
  have hmain := interpolate_covariance _ hsort
  exact ⟨hsort,
    hmain.1 0 ⟨0, [0], some [[0]]⟩ ⟨2, [4], some [[2]]⟩ 1 (by decide) (by decide)
      (by decide) (by decide),
    hmain.2.1 1 ⟨2, [4], some [[2]]⟩ (by decide)⟩

end StoneSoup
